import Mathlib

/-!
Verification of the numerical core of `niutils.py` (voxel-wise and
parcel-wise statistics over neuroimaging volumes).

The Python source is shallowly embedded:
arrays along their last (comparison) axis become `List ℚ`; numpy
operations that act independently along the last axis are modelled by
their one-dimensional action; the voxel grid of the parcel-metric
workflow becomes a flat list of voxels in C order; Python strings become
`List Char`.  Floating point is modelled by exact rationals, with the
one infinite value produced by `1 / 0` modelled explicitly as
`Option.none` where the source clamps it.  Division by zero in `ℚ`
follows the Lean convention `x / 0 = 0`; where the source reaches such a
division (an undefined value at runtime) the theorems exhibit the zero
divisor explicitly.
-/

/-! ### Utils: extension normalisation (`check_ext`) -/

/-- `check_ext` from the source: if `fname` ends with `ext`, the last
SEVEN characters are stripped (the hardcoded `fname[:-7]`, the length of
the default extension), and then `ext` is appended. Python slicing
`[:-7]` on a string shorter than 7 yields the empty string, matching
truncated `Nat` subtraction in `List.take (n - 7)`. -/
def check_ext (fname : List Char) (ext : List Char := ".nii.gz".toList) : List Char :=
  if ext.isSuffixOf fname then (fname.take (fname.length - 7)) ++ ext
  else fname ++ ext

/-! ### Utils: the filename template of `variance_weighted_average` -/

/-- The opening brace character of a Python format placeholder. -/
def braceL : Char := '\x7b'

/-- The closing brace character of a Python format placeholder. -/
def braceR : Char := '\x7d'

/-- The placeholder for the subject id in the filename template. -/
def subPat : List Char := [braceL, 's', 'u', 'b', braceR]

/-- The placeholder for the session number in the filename template. -/
def sesPat : List Char := [braceL, 's', 'e', 's', braceR]

/-- `leadsWith pat l` is true when `pat` occurs at the head of `l`. -/
def leadsWith : List Char → List Char → Bool
  | [], _ => true
  | _ :: _, [] => false
  | p :: ps, c :: cs => (p == c) && leadsWith ps cs

/-- Worker for `pyformat`, structurally recursive on a fuel bound that
dominates the length of the remaining text (each step consumes at least
one character, so the fuel never runs out when it starts at the full
length). -/
def pyformatF (subv sesv : List Char) : ℕ → List Char → List Char
  | _, [] => []
  | 0, l => l
  | fuel + 1, c :: rest =>
    if leadsWith subPat (c :: rest) then subv ++ pyformatF subv sesv fuel (rest.drop 4)
    else if leadsWith sesPat (c :: rest) then sesv ++ pyformatF subv sesv fuel (rest.drop 4)
    else c :: pyformatF subv sesv fuel rest

/-- Python `fname.format(sub=subv, ses=sesv)` restricted to the two
placeholders the source docstring requires: each occurrence of the
subject placeholder is replaced by `subv` and each occurrence of the
session placeholder by `sesv`, scanning left to right; a string with no
placeholders is returned unchanged. -/
def pyformat (subv sesv : List Char) (l : List Char) : List Char :=
  pyformatF subv sesv l.length l

/-- The Python formatting `f-string` of the session number with format
spec `02g`: the decimal digits, padded on the left with one zero when
the number has a single digit. -/
def sesFmt (ses : ℕ) : List Char :=
  (if ses < 10 then ['0'] else []) ++ Nat.toDigits 10 ses

/-- The inner session loop of `variance_weighted_average` (source lines
102-105) for one subject: for each session the source executes
`fname = fname.format(sub=sub, ses=...)`, REASSIGNING `fname`, and loads
the resulting path.  The function returns the final value of `fname`
together with the list of `(session, loaded path)` pairs. -/
def sesPaths (subv : List Char) : List Char → List ℕ → List Char × List (ℕ × List Char)
  | fname, [] => (fname, [])
  | fname, ses :: rest =>
    let fname2 := pyformat subv (sesFmt ses) fname
    let r := sesPaths subv fname2 rest
    (r.1, (ses, fname2) :: r.2)

/-- The subject loop of `variance_weighted_average` (source lines
99-105): the threaded `fname` carries over from one subject to the next.
Returns the `(subject, session, loaded path)` triples in iteration
order; sessions run over `range(1, last_ses)`. -/
def subPaths : List Char → List (List Char) → ℕ → List (List Char × ℕ × List Char)
  | _, [], _ => []
  | fname, subv :: rest, last_ses =>
    let r := sesPaths subv fname (List.range' 1 (last_ses - 1))
    (r.2.map (fun p => (subv, p))) ++ subPaths r.1 rest last_ses

/-- The sequence of file paths `variance_weighted_average` passes to the
volume loader, one triple `(subject, session, path)` per iteration of
its subject × session grid (directory joining and extension
normalisation are orthogonal to the templating and omitted). -/
def variance_weighted_average_paths (fname : List Char) (sub_list : List (List Char))
    (last_ses : ℕ) : List (List Char × ℕ × List Char) :=
  subPaths fname sub_list last_ses

/-! ### Rank computer (`compute_rank`) -/

/-- The ordering `np.argsort` uses on the indices of `d`: compare the
values, and break ties by index.  `np.argsort` sorts by value only and
its tie-break among equal values is implementation defined (the spec
leaves it unspecified); the stable index tie-break is used here, which
for pairwise distinct values coincides with any correct sort. -/
def argLe (d : List ℚ) (i j : ℕ) : Prop :=
  d.getD i 0 < d.getD j 0 ∨ (d.getD i 0 = d.getD j 0 ∧ i ≤ j)

instance (d : List ℚ) (i j : ℕ) : Decidable (argLe d i j) :=
  inferInstanceAs (Decidable (_ ∨ _))

/-- `np.argsort(data, axis=-1)` on one row: the indices `0..n-1` sorted
by the value they point to. -/
def argsort (d : List ℚ) : List ℕ :=
  List.insertionSort (argLe d) (List.range d.length)

/-- The maximum of a list of naturals (`0` on the empty list). -/
def listMax : List ℕ → ℕ
  | [] => 0
  | x :: xs => max x (listMax xs)

/-- The minimum of a nonempty list of naturals (`0` on the empty list). -/
def listMin : List ℕ → ℕ
  | [] => 0
  | [x] => x
  | x :: y :: xs => min x (listMin (y :: xs))

/-- `np.argmax` on one row: the index of the first occurrence of the
maximal value. -/
def np_argmax (l : List ℕ) : ℕ := l.indexOf (listMax l)

/-- `np.argmin` on one row: the index of the first occurrence of the
minimal value. -/
def np_argmin (l : List ℕ) : ℕ := l.indexOf (listMin l)

/-- `compute_rank` from the source, acting on one row of the input array
(`argsort`, `argmax`, `argmin` and the final arithmetic all act
independently along the last axis):
`reord = argsort(data)`, `rank = reord.argmax()` when `islast` else
`reord.argmin()`, and the result is `rank / (n - 1) * 100`. -/
def compute_rank (data : List ℚ) (islast : Bool := true) : ℚ :=
  let reord := argsort data
  let rank : ℕ := if islast then np_argmax reord else np_argmin reord
  (rank : ℚ) / ((data.length : ℚ) - 1) * 100

/-! ### Variance weighted average: the per-voxel combination stage -/

/-- Per subject statistics at one voxel: the session mean `avg` and the
session variance `var` computed by source lines 113-115. -/
structure SubjStat where
  avg : ℚ
  var : ℚ

/-- `invvar = 1 / data` at one voxel of one subject (source line 122):
`none` models the infinite float produced by division by zero. -/
def np_reciprocal (v : ℚ) : Option ℚ :=
  if v = 0 then none else some (1 / v)

/-- `invvar[np.isinf(invvar)] = 0` (source line 123): the infinite
weight is clamped to zero. -/
def clamp_inf : Option ℚ → ℚ
  | none => 0
  | some q => q

/-- The inverse-variance weight of one subject at one voxel after the
clamp. -/
def subj_weight (s : SubjStat) : ℚ := clamp_inf (np_reciprocal s.var)

/-- Source lines 121-129 at one voxel: weights are the clamped inverse
variances; the subject means are masked wherever the weight is zero
(`mask=[invvar == 0]`); `np.ma.average(..., weights=invvar)` averages
the unmasked entries with their weights, yields a masked value when
every entry is masked, and `.filled(0)` turns that masked value into
`0`. -/
def wavg_voxel (subs : List SubjStat) : ℚ :=
  let weighted := subs.map (fun s => (s.avg, subj_weight s))
  let valid := weighted.filter (fun p => decide (p.2 ≠ 0))
  if valid = [] then 0
  else (valid.map (fun p => p.2 * p.1)).sum / (valid.map (fun p => p.2)).sum

/-! ### Parcel metric computer (`compute_metric`) -/

/-- `np.mean` of a list (`sum / length`). -/
def np_mean (l : List ℚ) : ℚ := l.sum / l.length

/-- `np.var` of a list: the population variance, the mean of the squared
deviations from the mean. -/
def np_var (l : List ℚ) : ℚ := np_mean (l.map fun x => (x - np_mean l) ^ 2)

/-- Ascending sort of rational values. -/
def np_sort (l : List ℚ) : List ℚ := List.insertionSort (· ≤ ·) l

/-- `np.percentile(l, q)` with the default linear interpolation: sort
ascending, take the fractional position `(n - 1) * q / 100` and
interpolate between its two neighbouring entries. -/
def np_percentile (l : List ℚ) (q : ℚ) : ℚ :=
  let s := np_sort l
  let h : ℚ := ((s.length : ℚ) - 1) * q / 100
  let i : ℕ := (Int.floor h).toNat
  let lo := s.getD i 0
  let hi := s.getD (i + 1) lo
  lo + (h - (i : ℚ)) * (hi - lo)

/-- `np.unique`: the distinct values in ascending order. -/
def np_unique (l : List ℚ) : List ℚ := np_sort l.dedup

/-- `atlas = atlas * mask` (source line 151): elementwise product over
the flattened voxel grid. -/
def masked_atlas (atlas mask : List ℚ) : List ℚ := List.zipWith (· * ·) atlas mask

/-- `unique = np.unique(atlas); unique = unique[unique > 0]` (source
lines 152-153). -/
def pos_labels (atlas2 : List ℚ) : List ℚ :=
  (np_unique atlas2).filter (fun x => decide (0 < x))

/-- One entry of the parcel table (source lines 159-169): the chosen
statistic of one comparison-axis column of `data[atlas == label]`. The
final branch corresponds to an unrecognised metric, for which the
source leaves the `np.empty` row unfilled (unspecified values, modelled
as `0`; never exercised). -/
def parcel_stat (metric : String) (col : List ℚ) : ℚ :=
  if metric = "avg" then np_mean col
  else if metric = "iqr" then np_percentile col 75 - np_percentile col 25
  else if metric = "var" then np_var col
  else 0

/-- One row `parcels[m, :]` of the parcel table: `data[atlas == label]`
selects the rows of `data` at voxels carrying `label`, and the statistic
is taken down each of the `ncols` comparison-axis columns
(`axis=0`). -/
def parcel_row (data : List (List ℚ)) (atlas2 : List ℚ) (label : ℚ) (ncols : ℕ)
    (metric : String) : List ℚ :=
  let rows := ((data.zip atlas2).filter (fun p => decide (p.2 = label))).map Prod.fst
  (List.range ncols).map (fun k => parcel_stat metric (rows.map (fun r => r.getD k 0)))

/-- The recomposition loops (source lines 180-185) seen from one voxel:
`out[atlas == label] = vals[m]` runs over the `(label, value)` pairs in
order and each voxel, whose atlas value is fixed during the loop, ends
up with the value of the last pair whose label equals its atlas value,
or keeps its atlas value when no pair matches (`out` starts as
`atlas.copy()`). -/
def assign_labels (a : ℚ) (pairs : List (ℚ × ℚ)) : ℚ :=
  pairs.foldl (fun v p => if a = p.1 then p.2 else v) a

/-- `compute_metric` from the source over the flattened voxel grid:
`data` holds one comparison-axis row per voxel, `atlas` and `mask` one
value per voxel.  Steps follow source lines 151-186: mask the atlas,
enumerate positive labels, build the parcel table, rank its last-axis
entries, optionally invert the rank, and recompose the rank map and the
raw target metric map (`parcels[m, -1]`, the last column) over the
voxels. -/
def compute_metric (data : List (List ℚ)) (atlas mask : List ℚ)
    (metric : String := "avg") (invert : Bool := false) : List ℚ × List ℚ :=
  let atlas2 := masked_atlas atlas mask
  let unique := pos_labels atlas2
  let ncols := (data.headD []).length
  let parcels := unique.map (fun label => parcel_row data atlas2 label ncols metric)
  let rank0 := parcels.map (fun r => compute_rank r)
  let rank := if invert then rank0.map (fun x => 100 - x) else rank0
  let rank_map := atlas2.map (fun a => assign_labels a (unique.zip rank))
  let orig_metric :=
    atlas2.map (fun a => assign_labels a (unique.zip (parcels.map (fun r => r.getD (ncols - 1) 0))))
  (rank_map, orig_metric)

/-! ### Helper lemmas about `argLe` and `argsort` -/

theorem argLe_refl (d : List ℚ) (i : ℕ) : argLe d i i := Or.inr ⟨rfl, le_refl i⟩

theorem argLe_total (d : List ℚ) (i j : ℕ) : argLe d i j ∨ argLe d j i := by
  rcases lt_trichotomy (d.getD i 0) (d.getD j 0) with hlt | heq | hgt
  · exact Or.inl (Or.inl hlt)
  · rcases le_total i j with hij | hji
    · exact Or.inl (Or.inr ⟨heq, hij⟩)
    · exact Or.inr (Or.inr ⟨heq.symm, hji⟩)
  · exact Or.inr (Or.inl hgt)

theorem argLe_trans (d : List ℚ) (i j k : ℕ) :
    argLe d i j → argLe d j k → argLe d i k := by
  intro h1 h2
  rcases h1 with h1 | ⟨h1e, h1i⟩ <;> rcases h2 with h2 | ⟨h2e, h2i⟩
  · exact Or.inl (h1.trans h2)
  · exact Or.inl (lt_of_lt_of_le h1 (le_of_eq h2e))
  · exact Or.inl (lt_of_le_of_lt (le_of_eq h1e) h2)
  · exact Or.inr ⟨h1e.trans h2e, h1i.trans h2i⟩

theorem argLe_antisymm (d : List ℚ) (i j : ℕ) :
    argLe d i j → argLe d j i → i = j := by
  intro h1 h2
  rcases h1 with h1 | ⟨h1e, h1i⟩ <;> rcases h2 with h2 | ⟨h2e, h2i⟩
  · exact absurd (h1.trans h2) (lt_irrefl _)
  · rw [h2e] at h1; exact absurd h1 (lt_irrefl _)
  · rw [h1e] at h2; exact absurd h2 (lt_irrefl _)
  · exact le_antisymm h1i h2i

theorem argsort_perm (d : List ℚ) : (argsort d).Perm (List.range d.length) :=
  List.perm_insertionSort _ _

theorem argsort_sorted (d : List ℚ) : (argsort d).Sorted (argLe d) := by
  haveI : IsTotal ℕ (argLe d) := ⟨argLe_total d⟩
  haveI : IsTrans ℕ (argLe d) := ⟨argLe_trans d⟩
  exact List.sorted_insertionSort _ _

theorem argsort_nodup (d : List ℚ) : (argsort d).Nodup :=
  (argsort_perm d).nodup_iff.mpr (List.nodup_range d.length)

theorem sorted_indexOf_countP (d : List ℚ) :
    ∀ s : List ℕ, s.Sorted (argLe d) → s.Nodup → ∀ e ∈ s,
      s.indexOf e = s.countP (fun x => decide (¬ argLe d e x)) := by
  intro s
  induction s with
  | nil => intro _ _ e he; exact absurd he (List.not_mem_nil e)
  | cons a t ih =>
    intro hs hnd e he
    rw [List.sorted_cons] at hs
    rw [List.nodup_cons] at hnd
    rw [List.countP_cons]
    by_cases hea : e = a
    · subst hea
      rw [List.indexOf_cons_self]
      have hz : t.countP (fun x => decide (¬ argLe d e x)) = 0 := by
        rw [List.countP_eq_zero]
        intro x hx
        simp only [decide_eq_true_iff, not_not]
        exact hs.1 x hx
      rw [hz]
      simp [argLe_refl d e]
    · have het : e ∈ t := by
        rcases List.mem_cons.mp he with h | h
        · exact absurd h hea
        · exact h
      rw [List.indexOf_cons_ne t (fun hh => hea hh.symm)]
      have hpa : ¬ argLe d e a := fun hc =>
        hea (argLe_antisymm d e a hc (hs.1 e het))
      rw [ih hs.2 hnd.2 e het]
      simp [hpa, Nat.succ_eq_add_one]

theorem le_listMax (l : List ℕ) : ∀ x ∈ l, x ≤ listMax l := by
  induction l with
  | nil => intro x hx; exact absurd hx (List.not_mem_nil x)
  | cons a t ih =>
    intro x hx
    simp only [listMax]
    rcases List.mem_cons.mp hx with rfl | hxt
    · exact le_max_left _ _
    · exact le_trans (ih x hxt) (le_max_right _ _)

theorem listMax_mem : ∀ l : List ℕ, l ≠ [] → listMax l ∈ l := by
  intro l
  induction l with
  | nil => intro h; exact absurd rfl h
  | cons a t ih =>
    intro _
    simp only [listMax]
    by_cases ht : t = []
    · subst ht; simp [listMax]
    · rcases max_cases a (listMax t) with ⟨h1, _⟩ | ⟨h1, _⟩
      · rw [h1]; exact List.mem_cons_self a t
      · rw [h1]; exact List.mem_cons_of_mem a (ih ht)

theorem listMin_le (l : List ℕ) : ∀ x ∈ l, listMin l ≤ x := by
  induction l with
  | nil => intro x hx; exact absurd hx (List.not_mem_nil x)
  | cons a t ih =>
    intro x hx
    cases t with
    | nil =>
      simp only [listMin]
      rcases List.mem_cons.mp hx with rfl | h
      · exact le_refl x
      · exact absurd h (List.not_mem_nil x)
    | cons b u =>
      simp only [listMin]
      rcases List.mem_cons.mp hx with rfl | hxt
      · exact min_le_left _ _
      · exact le_trans (min_le_right _ _) (ih x hxt)

theorem listMin_mem : ∀ l : List ℕ, l ≠ [] → listMin l ∈ l := by
  intro l
  induction l with
  | nil => intro h; exact absurd rfl h
  | cons a t ih =>
    intro _
    cases t with
    | nil => simp [listMin]
    | cons b u =>
      simp only [listMin]
      rcases min_cases a (listMin (b :: u)) with ⟨h1, _⟩ | ⟨h1, _⟩
      · rw [h1]; exact List.mem_cons_self a _
      · rw [h1]; exact List.mem_cons_of_mem a (ih (by simp))

theorem np_argmax_argsort (d : List ℚ) (h : 1 ≤ d.length) :
    np_argmax (argsort d) = (argsort d).indexOf (d.length - 1) := by
  have hmem : d.length - 1 ∈ argsort d :=
    (argsort_perm d).mem_iff.mpr (List.mem_range.mpr (by omega))
  have hne : argsort d ≠ [] := by
    intro hnil; rw [hnil] at hmem; exact absurd hmem (List.not_mem_nil _)
  have h1 : listMax (argsort d) ∈ List.range d.length :=
    (argsort_perm d).mem_iff.mp (listMax_mem _ hne)
  have h2 : listMax (argsort d) < d.length := List.mem_range.mp h1
  have h3 : d.length - 1 ≤ listMax (argsort d) := le_listMax _ _ hmem
  have h4 : listMax (argsort d) = d.length - 1 := by omega
  rw [np_argmax, h4]

theorem np_argmin_argsort (d : List ℚ) (h : 1 ≤ d.length) :
    np_argmin (argsort d) = (argsort d).indexOf 0 := by
  have hmem : (0 : ℕ) ∈ argsort d :=
    (argsort_perm d).mem_iff.mpr (List.mem_range.mpr (by omega))
  have h2 : listMin (argsort d) ≤ 0 := listMin_le _ _ hmem
  have h4 : listMin (argsort d) = 0 := Nat.le_zero.mp h2
  rw [np_argmin, h4]

theorem np_argmax_count_le (d : List ℚ) (h : 1 ≤ d.length) :
    np_argmax (argsort d) =
      (List.range (d.length - 1)).countP
        (fun i => decide (d.getD i 0 ≤ d.getD (d.length - 1) 0)) := by
  have hmem : d.length - 1 ∈ argsort d :=
    (argsort_perm d).mem_iff.mpr (List.mem_range.mpr (by omega))
  rw [np_argmax_argsort d h,
      sorted_indexOf_countP d (argsort d) (argsort_sorted d) (argsort_nodup d) _ hmem,
      List.Perm.countP_eq _ (argsort_perm d)]
  obtain ⟨n, hn⟩ : ∃ n, d.length = n + 1 := ⟨d.length - 1, by omega⟩
  rw [hn]
  simp only [Nat.add_sub_cancel]
  rw [List.range_succ, List.countP_append]
  have hlast : List.countP (fun i => decide (¬ argLe d n i)) [n] = 0 := by
    simp [List.countP_cons, argLe_refl d n]
  rw [hlast, Nat.add_zero]
  apply List.countP_congr
  intro i hi
  have hilt : i < n := List.mem_range.mp hi
  simp only [decide_eq_true_iff]
  constructor
  · intro hna
    by_contra hlt
    exact hna (Or.inl (not_le.mp hlt))
  · intro hle hc
    rcases hc with hc | ⟨_, hni⟩
    · exact absurd hc (not_lt.mpr hle)
    · omega

theorem np_argmin_count_lt (d : List ℚ) (h : 1 ≤ d.length) :
    np_argmin (argsort d) =
      (List.range d.length).countP (fun i => decide (d.getD i 0 < d.getD 0 0)) := by
  have hmem : (0 : ℕ) ∈ argsort d :=
    (argsort_perm d).mem_iff.mpr (List.mem_range.mpr (by omega))
  rw [np_argmin_argsort d h,
      sorted_indexOf_countP d (argsort d) (argsort_sorted d) (argsort_nodup d) _ hmem,
      List.Perm.countP_eq _ (argsort_perm d)]
  apply List.countP_congr
  intro i _
  simp only [decide_eq_true_iff]
  constructor
  · intro hna
    by_contra hnlt
    rcases lt_or_eq_of_le (not_lt.mp hnlt) with hlt | heq
    · exact hna (Or.inl hlt)
    · exact hna (Or.inr ⟨heq, Nat.zero_le i⟩)
  · intro hlt hc
    rcases hc with hc | ⟨hceq, _⟩
    · exact absurd hc (asymm hlt)
    · rw [← hceq] at hlt; exact absurd hlt (lt_irrefl _)

theorem compute_rank_true_eq (d : List ℚ) (h : 1 ≤ d.length) :
    compute_rank d true =
      (((List.range (d.length - 1)).countP
          (fun i => decide (d.getD i 0 ≤ d.getD (d.length - 1) 0)) : ℕ) : ℚ)
        / ((d.length : ℚ) - 1) * 100 := by
  simp only [compute_rank, if_true]
  rw [np_argmax_count_le d h]

theorem compute_rank_false_eq (d : List ℚ) (h : 1 ≤ d.length) :
    compute_rank d false =
      (((List.range d.length).countP (fun i => decide (d.getD i 0 < d.getD 0 0)) : ℕ) : ℚ)
        / ((d.length : ℚ) - 1) * 100 := by
  simp only [compute_rank, Bool.false_eq_true, if_false]
  rw [np_argmin_count_lt d h]

theorem getD_append_lt : ∀ (l₁ l₂ : List ℚ) (i : ℕ), i < l₁.length →
    (l₁ ++ l₂).getD i 0 = l₁.getD i 0
  | [], _, i, h => absurd h (by simp)
  | _ :: _, _, 0, _ => rfl
  | _ :: l, l₂, i + 1, h => getD_append_lt l l₂ i (by simpa using h)

theorem getD_append_len (l : List ℚ) (t : ℚ) : (l ++ [t]).getD l.length 0 = t := by
  induction l with
  | nil => rfl
  | cons a u ih => exact ih

theorem getD_map_lt (f : ℚ → ℚ) : ∀ (l : List ℚ) (i : ℕ), i < l.length →
    (l.map f).getD i 0 = f (l.getD i 0)
  | [], i, h => absurd h (by simp)
  | _ :: _, 0, _ => rfl
  | _ :: l, i + 1, h => getD_map_lt f l i (by simpa using h)

theorem countP_range_getD (p : ℚ → Bool) : ∀ l : List ℚ,
    (List.range l.length).countP (fun i => p (l.getD i 0)) = l.countP p := by
  intro l
  induction l with
  | nil => rfl
  | cons a t ih =>
    rw [List.length_cons, List.range_succ_eq_map, List.countP_cons, List.countP_map,
        List.countP_cons]
    have h1 : (List.range t.length).countP ((fun i => p ((a :: t).getD i 0)) ∘ Nat.succ)
        = t.countP p := by
      rw [← ih]
      apply List.countP_congr
      intro i _
      simp [Function.comp]
    rw [h1]
    simp

theorem mem_np_unique (x : ℚ) (l : List ℚ) : x ∈ np_unique l ↔ x ∈ l := by
  unfold np_unique np_sort
  rw [(List.perm_insertionSort _ _).mem_iff, List.mem_dedup]

theorem pos_labels_nodup (l : List ℚ) : (pos_labels l).Nodup := by
  unfold pos_labels np_unique np_sort
  exact ((List.perm_insertionSort _ _).nodup_iff.mpr (List.nodup_dedup l)).filter _

/-! ### Claim theorems -/

/-- Claim C1 (code bug): the source reassigns `fname` on every iteration
(`fname = fname.format(...)`), so after the first load the template is
gone and every later subject and session reloads the first substituted
path.  At the template `f_` + subject placeholder + `_` + session
placeholder with subjects `A`, `B` and `last_ses = 2`, the pair `(B, 1)`
loads `f_A_01`, while a fresh substitution of the caller template for
`(B, 1)` — what the claim and the source docstring describe — yields
`f_B_01`. -/
theorem variance_weighted_average_template_bug :
    variance_weighted_average_paths (['f', '_'] ++ subPat ++ ['_'] ++ sesPat)
        [['A'], ['B']] 2 =
      [(['A'], 1, ['f', '_', 'A', '_', '0', '1']),
       (['B'], 1, ['f', '_', 'A', '_', '0', '1'])] ∧
    pyformat ['B'] (sesFmt 1) (['f', '_'] ++ subPat ++ ['_'] ++ sesPat) =
      ['f', '_', 'B', '_', '0', '1'] := by
  decide

/-- Claim C4 counterexample: with the two-character extension `.x` the
normaliser is not idempotent, because the source strips a hardcoded
seven characters: `check_ext("abcdefgh.x", ".x") = "abc.x"` but a second
application yields `".x"`. -/
theorem check_ext_not_idempotent_cex :
    check_ext (check_ext "abcdefgh.x".toList ".x".toList) ".x".toList ≠
      check_ext "abcdefgh.x".toList ".x".toList := by
  decide

/-- Claim C4 (amended): `check_ext` is idempotent whenever the extension
argument has length seven — in particular for the default `.nii.gz` —
since then the hardcoded seven-character strip removes exactly the
extension. -/
theorem check_ext_idempotent_len7 (fname ext : List Char) (h : ext.length = 7) :
    check_ext (check_ext fname ext) ext = check_ext fname ext := by
  by_cases hs : ext.isSuffixOf fname = true
  · have hsuf : ext <:+ fname := List.isSuffixOf_iff_suffix.mp hs
    obtain ⟨p, hp⟩ := hsuf
    have h1 : check_ext fname ext = fname := by
      unfold check_ext
      rw [if_pos hs]
      subst hp
      rw [List.length_append, h, Nat.add_sub_cancel, List.take_left]
    rw [h1]
    exact h1
  · have h1 : check_ext fname ext = fname ++ ext := by
      unfold check_ext
      rw [if_neg hs]
    rw [h1]
    have hs2 : ext.isSuffixOf (fname ++ ext) = true :=
      List.isSuffixOf_iff_suffix.mpr (List.suffix_append fname ext)
    unfold check_ext
    rw [if_pos hs2, List.length_append, h, Nat.add_sub_cancel, List.take_left]

/-- Witness for the amended claim C4 at the default extension. -/
theorem check_ext_idempotent_len7_witness :
    ".nii.gz".toList.length = 7 ∧
    check_ext (check_ext "a".toList ".nii.gz".toList) ".nii.gz".toList =
      check_ext "a".toList ".nii.gz".toList :=
  ⟨by decide, check_ext_idempotent_len7 "a".toList ".nii.gz".toList (by decide)⟩

/-- Claim C2: with `islast = true` and pairwise distinct entries,
`compute_rank` returns `100` when the last (target) entry is the unique
maximum of the axis, and `0` when it is the unique minimum. -/
theorem compute_rank_target_unique_extreme (d : List ℚ) (h2 : 2 ≤ d.length)
    (_hnd : d.Nodup) :
    ((∀ i < d.length - 1, d.getD i 0 < d.getD (d.length - 1) 0) →
        compute_rank d true = 100) ∧
    ((∀ i < d.length - 1, d.getD (d.length - 1) 0 < d.getD i 0) →
        compute_rank d true = 0) := by
  have hq : ((d.length : ℚ) - 1) ≠ 0 := by
    have h2q : (2 : ℚ) ≤ (d.length : ℚ) := by exact_mod_cast h2
    intro hc
    have : (d.length : ℚ) = 1 := by linarith
    linarith
  constructor
  · intro hmax
    rw [compute_rank_true_eq d (by omega)]
    have hcount : (List.range (d.length - 1)).countP
        (fun i => decide (d.getD i 0 ≤ d.getD (d.length - 1) 0)) = d.length - 1 := by
      rw [show (List.range (d.length - 1)).countP
            (fun i => decide (d.getD i 0 ≤ d.getD (d.length - 1) 0))
          = (List.range (d.length - 1)).length from
        List.countP_eq_length.mpr (fun i hi => by
          rw [decide_eq_true_iff]
          exact le_of_lt (hmax i (List.mem_range.mp hi)))]
      rw [List.length_range]
    rw [hcount]
    have hcast : ((d.length - 1 : ℕ) : ℚ) = (d.length : ℚ) - 1 := by
      rw [Nat.cast_sub (by omega : 1 ≤ d.length)]
      norm_num
    rw [hcast, div_self hq, one_mul]
  · intro hmin
    rw [compute_rank_true_eq d (by omega)]
    have hcount : (List.range (d.length - 1)).countP
        (fun i => decide (d.getD i 0 ≤ d.getD (d.length - 1) 0)) = 0 := by
      rw [List.countP_eq_zero]
      intro i hi
      simp only [decide_eq_true_iff]
      exact not_le.mpr (hmin i (List.mem_range.mp hi))
    rw [hcount]
    norm_num

/-- Witness for claim C2: at `[1, 2, 3]` the target `3` is the unique
maximum and the rank is `100`; at `[2, 3, 1]` the target `1` is the
unique minimum and the rank is `0`. -/
theorem compute_rank_target_unique_extreme_witness :
    compute_rank ([1, 2, 3] : List ℚ) true = 100 ∧
    compute_rank ([2, 3, 1] : List ℚ) true = 0 :=
  ⟨(compute_rank_target_unique_extreme [1, 2, 3] (by decide) (by decide)).1 (by decide),
   (compute_rank_target_unique_extreme [2, 3, 1] (by decide) (by decide)).2 (by decide)⟩

/-- Claim C3 counterexample: at `[1, 0, 5]` — pairwise distinct, last
entry `5` the unique maximum — `compute_rank` with `islast = false`
returns `50`, not the `0` the claim asserts for a unique-maximum target:
with `islast = false` the source takes `argmin` of the argsort, which is
the rank position of the FIRST entry (`1`, one of two entries below
nothing else than `5`), not an inverted rank of the last entry. -/
theorem compute_rank_islast_false_cex :
    (([1, 0, 5] : List ℚ).Nodup ∧
      (∀ i < ([1, 0, 5] : List ℚ).length - 1,
        ([1, 0, 5] : List ℚ).getD i 0 < ([1, 0, 5] : List ℚ).getD 2 0)) ∧
    compute_rank ([1, 0, 5] : List ℚ) false ≠ 0 := by
  refine ⟨⟨by decide, by decide⟩, ?_⟩
  have h : np_argmin (argsort ([1, 0, 5] : List ℚ)) = 1 := by decide
  simp only [compute_rank, Bool.false_eq_true, if_false]
  rw [h]
  norm_num

/-- Claim C3 (amended): with `islast = false`, `compute_rank` returns
the percentile rank of the FIRST entry of the axis rather than an
inverted rank of the last: for pairwise distinct entries it returns
`100` when the first entry is the unique maximum and `0` when the first
entry is the unique minimum. -/
theorem compute_rank_islast_false_first_entry (d : List ℚ) (h2 : 2 ≤ d.length)
    (_hnd : d.Nodup) :
    ((∀ i < d.length, 0 < i → d.getD i 0 < d.getD 0 0) →
        compute_rank d false = 100) ∧
    ((∀ i < d.length, 0 < i → d.getD 0 0 < d.getD i 0) →
        compute_rank d false = 0) := by
  have hq : ((d.length : ℚ) - 1) ≠ 0 := by
    have h2q : (2 : ℚ) ≤ (d.length : ℚ) := by exact_mod_cast h2
    intro hc
    have : (d.length : ℚ) = 1 := by linarith
    linarith
  constructor
  · intro hmax
    rw [compute_rank_false_eq d (by omega)]
    have hcount : (List.range d.length).countP
        (fun i => decide (d.getD i 0 < d.getD 0 0)) = d.length - 1 := by
      obtain ⟨n, hn⟩ : ∃ n, d.length = n + 1 := ⟨d.length - 1, by omega⟩
      rw [hn, List.range_succ_eq_map, List.countP_cons, List.countP_map]
      have h0 : (List.range n).countP
          ((fun i => decide (d.getD i 0 < d.getD 0 0)) ∘ Nat.succ)
          = (List.range n).length :=
        List.countP_eq_length.mpr (fun i hi => by
          simp only [Function.comp_apply, decide_eq_true_iff]
          exact hmax (i + 1) (by
            rw [hn]
            exact Nat.succ_lt_succ (List.mem_range.mp hi)) (Nat.succ_pos i))
      rw [h0, List.length_range]
      simp
    rw [hcount]
    have hcast : ((d.length - 1 : ℕ) : ℚ) = (d.length : ℚ) - 1 := by
      rw [Nat.cast_sub (by omega : 1 ≤ d.length)]
      norm_num
    rw [hcast, div_self hq, one_mul]
  · intro hmin
    rw [compute_rank_false_eq d (by omega)]
    have hcount : (List.range d.length).countP
        (fun i => decide (d.getD i 0 < d.getD 0 0)) = 0 := by
      rw [List.countP_eq_zero]
      intro i hi
      simp only [decide_eq_true_iff]
      rcases Nat.eq_zero_or_pos i with rfl | hpos
      · exact lt_irrefl _
      · exact not_lt.mpr (le_of_lt (hmin i (List.mem_range.mp hi) hpos))
    rw [hcount]
    norm_num

/-- Witness for the amended claim C3: at `[5, 1, 0]` the first entry is
the unique maximum and the islast-false rank is `100`; at `[0, 5, 1]`
the first entry is the unique minimum and the rank is `0`. -/
theorem compute_rank_islast_false_first_entry_witness :
    compute_rank ([5, 1, 0] : List ℚ) false = 100 ∧
    compute_rank ([0, 5, 1] : List ℚ) false = 0 :=
  ⟨(compute_rank_islast_false_first_entry [5, 1, 0] (by decide) (by decide)).1 (by decide),
   (compute_rank_islast_false_first_entry [0, 5, 1] (by decide) (by decide)).2 (by decide)⟩

/-- Claim C5: on a single-element comparison axis the denominator
`data.shape[-1] - 1` of `compute_rank` equals zero and the computation
is exactly the unguarded division by that zero (no branch of the source
avoids it), so at runtime no defined rank value is produced; in this
total embedding the division by zero is displayed explicitly. -/
theorem compute_rank_single_element_div_zero (d : List ℚ) (b : Bool)
    (h : d.length = 1) :
    (d.length : ℚ) - 1 = 0 ∧
    compute_rank d b =
      (((if b then np_argmax (argsort d) else np_argmin (argsort d)) : ℕ) : ℚ)
        / 0 * 100 := by
  have h0 : (d.length : ℚ) - 1 = 0 := by rw [h]; norm_num
  refine ⟨h0, ?_⟩
  simp only [compute_rank]
  rw [h0]

/-- Witness for claim C5 at the one-element axis `[5]`. -/
theorem compute_rank_single_element_div_zero_witness :
    (([5] : List ℚ).length : ℚ) - 1 = 0 ∧
    compute_rank ([5] : List ℚ) true =
      (((if true then np_argmax (argsort ([5] : List ℚ))
          else np_argmin (argsort ([5] : List ℚ))) : ℕ) : ℚ) / 0 * 100 :=
  compute_rank_single_element_div_zero [5] true (by decide)

/-- Claim C8: the islast-true rank of the target (last) entry is
invariant under any permutation of the non-target entries; a permutation
keeps every entry its value, hence automatically preserves each entry
order relation to the target. -/
theorem compute_rank_perm_invariant (l₁ l₂ : List ℚ) (t : ℚ) (hp : l₁.Perm l₂) :
    compute_rank (l₁ ++ [t]) true = compute_rank (l₂ ++ [t]) true := by
  have hlen := hp.length_eq
  have key : ∀ l : List ℚ,
      (List.range ((l ++ [t]).length - 1)).countP
        (fun i => decide ((l ++ [t]).getD i 0 ≤ (l ++ [t]).getD ((l ++ [t]).length - 1) 0))
      = l.countP (fun x => decide (x ≤ t)) := by
    intro l
    have hlen2 : (l ++ [t]).length - 1 = l.length := by simp
    rw [hlen2]
    have hlastD : (l ++ [t]).getD l.length 0 = t := getD_append_len l t
    rw [hlastD]
    rw [← countP_range_getD (fun x => decide (x ≤ t)) l]
    apply List.countP_congr
    intro i hi
    rw [getD_append_lt l [t] i (List.mem_range.mp hi)]
  rw [compute_rank_true_eq _ (by simp), compute_rank_true_eq _ (by simp),
      key l₁, key l₂, hp.countP_eq]
  simp only [List.length_append, List.length_cons, List.length_nil, hlen]

/-- Witness for claim C8: the lists `[3, 1]` and `[1, 3]` are
permutations of each other and both give the target `2` the rank `50`. -/
theorem compute_rank_perm_invariant_witness :
    compute_rank (([3, 1] : List ℚ) ++ [2]) true =
      compute_rank (([1, 3] : List ℚ) ++ [2]) true :=
  compute_rank_perm_invariant [3, 1] [1, 3] 2 (by decide)

/-- Claim C6: at a voxel where every subject has variance zero, every
inverse-variance weight is clamped to zero, the voxel is fully masked,
and the filled group average is exactly `0`. -/
theorem wavg_voxel_all_zero_variance (subs : List SubjStat)
    (h : ∀ s ∈ subs, s.var = 0) :
    wavg_voxel subs = 0 := by
  have hfil : (subs.map (fun s => (s.avg, subj_weight s))).filter
      (fun p => decide (p.2 ≠ 0)) = [] := by
    rw [List.filter_eq_nil_iff]
    intro p hp
    rw [List.mem_map] at hp
    obtain ⟨s, hs, rfl⟩ := hp
    simp [subj_weight, np_reciprocal, clamp_inf, h s hs]
  simp only [wavg_voxel]
  rw [hfil, if_pos rfl]

/-- Witness for claim C6: two subjects with zero variance at the voxel
give output `0`. -/
theorem wavg_voxel_all_zero_variance_witness :
    wavg_voxel [⟨5, 0⟩, ⟨7, 0⟩] = 0 :=
  wavg_voxel_all_zero_variance [⟨5, 0⟩, ⟨7, 0⟩] (by decide)

/-- Claim C7 counterexample: two subjects with IDENTICAL per-voxel
variance — both zero — and per-subject mean `1` produce the output `0`
(the full-mask fill value), not the arithmetic mean `1` the claim
asserts for every pair of subjects with identical variance. -/
theorem wavg_voxel_identical_zero_variance_cex :
    wavg_voxel [⟨1, 0⟩, ⟨1, 0⟩] = 0 ∧
    wavg_voxel [⟨1, 0⟩, ⟨1, 0⟩] ≠ ((1 : ℚ) + 1) / 2 := by
  have h : wavg_voxel [⟨1, 0⟩, ⟨1, 0⟩] = 0 := by
    simp [wavg_voxel, subj_weight, np_reciprocal, clamp_inf]
  exact ⟨h, by rw [h]; norm_num⟩

/-- Claim C7 (amended): for two subjects with identical NONZERO
per-voxel variance the variance-weighted average equals the unweighted
arithmetic mean of the two per-subject means; with identical zero
variance the fill policy yields `0` instead. -/
theorem wavg_voxel_identical_nonzero_variance (a₁ a₂ v : ℚ) (hv : v ≠ 0) :
    wavg_voxel [⟨a₁, v⟩, ⟨a₂, v⟩] = (a₁ + a₂) / 2 := by
  have hw : subj_weight ⟨a₁, v⟩ = 1 / v := by
    simp [subj_weight, np_reciprocal, clamp_inf, hv]
  have hw2 : subj_weight ⟨a₂, v⟩ = 1 / v := by
    simp [subj_weight, np_reciprocal, clamp_inf, hv]
  have hnz : (1 : ℚ) / v ≠ 0 := one_div_ne_zero hv
  simp only [wavg_voxel, List.map_cons, List.map_nil, hw, hw2]
  rw [List.filter_cons, List.filter_cons, List.filter_nil]
  simp only [decide_eq_true_iff]
  rw [if_pos hnz, if_pos hnz, if_neg (by simp)]
  simp only [List.map_cons, List.map_nil, List.sum_cons, List.sum_nil]
  rw [add_zero, add_zero, ← mul_add, ← two_mul, mul_comm (2 : ℚ) (1 / v),
      mul_div_mul_left _ _ hnz]

/-- Witness for the amended claim C7: means `3` and `5` with common
variance `2` average to `4`. -/
theorem wavg_voxel_identical_nonzero_variance_witness :
    wavg_voxel [⟨3, 2⟩, ⟨5, 2⟩] = ((3 : ℚ) + 5) / 2 :=
  wavg_voxel_identical_nonzero_variance 3 5 2 (by norm_num)

/-- Claim C9: for a synthetic atlas with exactly two positive labels
`l1 < l2`, an all-valid mask, and data whose per-label means along the
3-entry comparison axis are `[1, 2, 3]` for `l1` and `[10, 20, 5]` for
`l2`, `compute_metric` with metric `avg` and `invert = false` gives
every `l1` voxel rank `100` and metric `3`, and every `l2` voxel rank
`0` and metric `5`. -/
theorem compute_metric_two_label_synthetic
    (data : List (List ℚ)) (atlas mask : List ℚ) (l1 l2 : ℚ)
    (hm : mask = List.replicate atlas.length 1)
    (hn : (data.headD []).length = 3)
    (hu : pos_labels (masked_atlas atlas mask) = [l1, l2])
    (h1 : parcel_row data (masked_atlas atlas mask) l1 3 "avg" = [1, 2, 3])
    (h2 : parcel_row data (masked_atlas atlas mask) l2 3 "avg" = [10, 20, 5]) :
    ∀ i < atlas.length,
      ((masked_atlas atlas mask).getD i 0 = l1 →
        (compute_metric data atlas mask "avg" false).1.getD i 0 = 100 ∧
        (compute_metric data atlas mask "avg" false).2.getD i 0 = 3) ∧
      ((masked_atlas atlas mask).getD i 0 = l2 →
        (compute_metric data atlas mask "avg" false).1.getD i 0 = 0 ∧
        (compute_metric data atlas mask "avg" false).2.getD i 0 = 5) := by
  have hnodup : (pos_labels (masked_atlas atlas mask)).Nodup := pos_labels_nodup _
  rw [hu] at hnodup
  have hne : l1 ≠ l2 := by
    rw [List.nodup_cons] at hnodup
    intro hc
    exact hnodup.1 (by rw [hc]; exact List.mem_cons_self l2 [])
  have hr1 : compute_rank ([1, 2, 3] : List ℚ) = 100 := by
    have h : np_argmax (argsort ([1, 2, 3] : List ℚ)) = 2 := by decide
    simp only [compute_rank, if_true]
    rw [h]
    norm_num
  have hr2 : compute_rank ([10, 20, 5] : List ℚ) = 0 := by
    have h : np_argmax (argsort ([10, 20, 5] : List ℚ)) = 0 := by decide
    simp only [compute_rank, if_true]
    rw [h]
    norm_num
  have hcm : compute_metric data atlas mask "avg" false =
      ((masked_atlas atlas mask).map (fun a => assign_labels a [(l1, 100), (l2, 0)]),
       (masked_atlas atlas mask).map (fun a => assign_labels a [(l1, 3), (l2, 5)])) := by
    simp only [compute_metric, hn, hu, List.map_cons, List.map_nil, h1, h2, hr1, hr2,
      Bool.false_eq_true, if_false, List.zip_cons_cons, List.zip_nil_right]
    norm_num
  have hlen2 : (masked_atlas atlas mask).length = atlas.length := by
    simp [masked_atlas, hm]
  intro i hi
  have hi2 : i < (masked_atlas atlas mask).length := by rw [hlen2]; exact hi
  constructor
  · intro hil
    constructor
    · show ((compute_metric data atlas mask "avg" false).1).getD i 0 = 100
      rw [hcm]
      show ((masked_atlas atlas mask).map
        (fun a => assign_labels a [(l1, 100), (l2, 0)])).getD i 0 = 100
      rw [getD_map_lt _ _ _ hi2, hil]
      simp [assign_labels, hne]
    · rw [hcm]
      show ((masked_atlas atlas mask).map
        (fun a => assign_labels a [(l1, 3), (l2, 5)])).getD i 0 = 3
      rw [getD_map_lt _ _ _ hi2, hil]
      simp [assign_labels, hne]
  · intro hil
    have hne2 : l2 ≠ l1 := fun hc => hne hc.symm
    constructor
    · rw [hcm]
      show ((masked_atlas atlas mask).map
        (fun a => assign_labels a [(l1, 100), (l2, 0)])).getD i 0 = 0
      rw [getD_map_lt _ _ _ hi2, hil]
      simp [assign_labels, hne2]
    · rw [hcm]
      show ((masked_atlas atlas mask).map
        (fun a => assign_labels a [(l1, 3), (l2, 5)])).getD i 0 = 5
      rw [getD_map_lt _ _ _ hi2, hil]
      simp [assign_labels, hne2]

/-- Witness for claim C9 at the grid with voxels `[1, 1, 2]` (labels),
an all-ones mask, and rows `[1,2,3]`, `[1,2,3]`, `[10,20,5]`: the label
one voxel `0` gets rank `100` and metric `3`, the label two voxel `2`
gets rank `0` and metric `5`. -/
theorem compute_metric_two_label_synthetic_witness :
    (compute_metric [[1, 2, 3], [1, 2, 3], [10, 20, 5]] [1, 1, 2] [1, 1, 1]
        "avg" false).1.getD 0 0 = 100 ∧
    (compute_metric [[1, 2, 3], [1, 2, 3], [10, 20, 5]] [1, 1, 2] [1, 1, 1]
        "avg" false).2.getD 0 0 = 3 ∧
    (compute_metric [[1, 2, 3], [1, 2, 3], [10, 20, 5]] [1, 1, 2] [1, 1, 1]
        "avg" false).1.getD 2 0 = 0 ∧
    (compute_metric [[1, 2, 3], [1, 2, 3], [10, 20, 5]] [1, 1, 2] [1, 1, 1]
        "avg" false).2.getD 2 0 = 5 := by
  have hma : masked_atlas [1, 1, 2] [1, 1, 1] = [1, 1, 2] := by
    norm_num [masked_atlas]
  have h := compute_metric_two_label_synthetic [[1, 2, 3], [1, 2, 3], [10, 20, 5]]
    [1, 1, 2] [1, 1, 1] 1 2
    (by decide)
    (by decide)
    (by rw [hma]; decide)
    (by rw [hma]; norm_num [parcel_row, parcel_stat, np_mean, List.range_succ,
          List.filter, List.getD])
    (by rw [hma]; norm_num [parcel_row, parcel_stat, np_mean, List.range_succ,
          List.filter, List.getD])
  have h0 := h 0 (by decide)
  have h2 := h 2 (by decide)
  have e0 := h0.1 (by rw [hma]; rfl)
  have e2 := h2.2 (by rw [hma]; rfl)
  exact ⟨e0.1, e0.2, e2.1, e2.2⟩

/-- Claim C10: when the masked atlas `atlas * mask` has no positive
label and the comparison axis has length at least two, the label
enumeration of `compute_metric` is empty, nothing fails, and both
returned maps are equal to the masked atlas — the empty-label case is a
no-op. -/
theorem compute_metric_no_positive_labels (data : List (List ℚ)) (atlas mask : List ℚ)
    (metric : String) (invert : Bool)
    (h : ∀ x ∈ masked_atlas atlas mask, x ≤ 0)
    (_h2 : 2 ≤ (data.headD []).length) :
    compute_metric data atlas mask metric invert =
      (masked_atlas atlas mask, masked_atlas atlas mask) := by
  have hu : pos_labels (masked_atlas atlas mask) = [] := by
    unfold pos_labels
    rw [List.filter_eq_nil_iff]
    intro x hx
    simp only [decide_eq_true_iff]
    exact not_lt.mpr (h x ((mem_np_unique x _).mp hx))
  have hid : (masked_atlas atlas mask).map
      (fun a => assign_labels a ([] : List (ℚ × ℚ))) = masked_atlas atlas mask := by
    have hfa : (fun a : ℚ => assign_labels a ([] : List (ℚ × ℚ))) = fun a => a :=
      funext (fun _ => rfl)
    rw [hfa, List.map_id']
  simp only [compute_metric, hu, List.map_nil, ite_self, List.zip_nil_left]
  rw [hid]

/-- Witness for claim C10: the atlas `[0, -3]` with all-ones mask has no
positive label, and both maps returned on the two-column data equal the
masked atlas. -/
theorem compute_metric_no_positive_labels_witness :
    compute_metric [[1, 2], [3, 4]] [0, -3] [1, 1] "avg" false =
      (masked_atlas [0, -3] [1, 1], masked_atlas [0, -3] [1, 1]) :=
  compute_metric_no_positive_labels [[1, 2], [3, 4]] [0, -3] [1, 1] "avg" false
    (by norm_num [masked_atlas]) (by decide)
